import Mathlib

/-!
Shallow embedding of the synthetic chain constructor in
`zebra-chain/src/block/arbitrary.rs`: the fixup closure inside
`Block::partial_chain_strategy`, together with `fix_generated_transaction`
and `find_valid_utxo_for_spend`.  External collaborators that the fixup
calls (hashing, the transaction's own value-pool accounting, the
note-commitment and history accumulator trees, activation-height tables)
are not part of the source under verification; they are modelled from the
specification, either as concrete functions (marked `Modelled from the
spec:`) or as an `Oracles` bundle of abstract digest functions.
-/

/-- A reference to one output of one transaction
(`transparent::OutPoint`: originating transaction id plus output index). -/
structure OutPoint where
  txid : Nat
  index : Nat
deriving DecidableEq

/-- A transparent output (`transparent::Output`); only its value is ever read
by the fixup and the value-pool accounting. -/
structure Output where
  value : Int
deriving DecidableEq

/-- An unspent transparent output (`transparent::Utxo`): value-carrying
output, creation height, coinbase flag. -/
structure Utxo where
  output : Output
  height : Nat
  fromCoinbase : Bool
deriving DecidableEq

/-- `transparent::OrderedUtxo`: a UTXO together with the index of its
creating transaction in its block. -/
structure OrderedUtxo where
  utxo : Utxo
  txIndexInBlock : Nat
deriving DecidableEq

/-- A transparent input (`transparent::Input`): either a reference to a
previous output (`PrevOut`, modelled by its outpoint; the unlock script and
sequence number are never read by the fixup), or a coinbase input carrying
a height. `input.outpoint()` is `some` exactly on the first form. -/
inductive Input where
  | prevOut (outpoint : OutPoint)
  | coinbase (height : Nat)
deriving DecidableEq

/-- `transparent::CoinbaseSpendRestriction`: spend unrestricted
(`SomeTransparentOutputs`) or only inside a transaction whose transparent
outputs have been cleared (`OnlyShieldedOutputs`). -/
inductive CoinbaseSpendRestriction where
  | someTransparentOutputs
  | onlyShieldedOutputs (spendHeight : Nat)
deriving DecidableEq

/-- A candidate transaction.  Transparent inputs and outputs are modelled
in full (they are rewritten by the fixer); the shielded side is modelled by
the data the fixup reads: the per-pool note commitments it appends to the
accumulator trees, a flag for the presence of shielded inputs (sprout
joinsplits, sapling spends, orchard actions), and the per-shielded-pool
value flows used by the value-conservation step. -/
structure Transaction where
  inputs : List Input
  outputs : List Output
  hasShieldedInputs : Bool
  saplingNoteCommitments : List Nat
  orchardNoteCommitments : List Nat
  sproutDelta : Int
  saplingDelta : Int
  orchardDelta : Int
deriving DecidableEq

/-- Modelled from the spec: a transaction "carries shielded outputs" when
it has shielded note commitments to append (`Transaction::has_shielded_outputs`). -/
def Transaction.hasShieldedOutputs (tx : Transaction) : Bool :=
  !tx.saplingNoteCommitments.isEmpty || !tx.orchardNoteCommitments.isEmpty

/-- Modelled from the spec: the drop rule tests whether the transaction
still has transparent or shielded inputs
(`Transaction::has_transparent_or_shielded_inputs`). -/
def Transaction.hasTransparentOrShieldedInputs (tx : Transaction) : Bool :=
  !tx.inputs.isEmpty || tx.hasShieldedInputs

/-- Modelled from the spec: the derived spend-restriction class
(`Transaction::coinbase_spend_restriction`): a transaction with no
transparent outputs is a shielded-only spender, otherwise it may keep
transparent outputs. -/
def Transaction.coinbaseSpendRestriction (tx : Transaction) (height : Nat) :
    CoinbaseSpendRestriction :=
  if tx.outputs.isEmpty then .onlyShieldedOutputs height else .someTransparentOutputs

/-- Modelled from the spec: a coinbase transaction has exactly one input,
which is a coinbase input (`Transaction::is_coinbase`). -/
def Transaction.isCoinbase (tx : Transaction) : Bool :=
  match tx.inputs with
  | [Input.coinbase _] => true
  | _ => false

/-- `ValueBalance`: one signed running balance per value pool. -/
structure ValueBalance where
  transparent : Int
  sprout : Int
  sapling : Int
  orchard : Int
deriving DecidableEq

/-- `ValueBalance::zero`. -/
def ValueBalance.zero : ValueBalance := ⟨0, 0, 0, 0⟩

/-- Every pool balance is non-negative. -/
def ValueBalance.allNonNeg (v : ValueBalance) : Prop :=
  0 ≤ v.transparent ∧ 0 ≤ v.sprout ∧ 0 ≤ v.sapling ∧ 0 ≤ v.orchard

instance (v : ValueBalance) : Decidable v.allNonNeg := by
  unfold ValueBalance.allNonNeg; infer_instance

/-- Sum of the values of a list of transparent outputs. -/
def sumOutputValues (outs : List Output) : Int :=
  outs.foldl (fun a o => a + o.value) 0

/-- Modelled from the spec: `Transaction::fix_chain_value_pools` (an
external collaborator of the fixer).  Given the current pool balances and
the map of outputs spent by this transaction, it recomputes the chain value
pools from the transaction's value flow; it succeeds exactly when every
resulting pool balance is non-negative, and failure is fatal in the caller. -/
def fixChainValuePools (pools : ValueBalance) (spentOutputs : List (OutPoint × Output))
    (tx : Transaction) : Option ValueBalance :=
  let newPools : ValueBalance :=
    { transparent := pools.transparent + sumOutputValues tx.outputs -
        sumOutputValues (spentOutputs.map Prod.snd)
      sprout := pools.sprout + tx.sproutDelta
      sapling := pools.sapling + tx.saplingDelta
      orchard := pools.orchard + tx.orchardDelta }
  if newPools.allNonNeg then some newPools else none

/-- A block header.  Only `previous_block_hash` and `commitment_bytes` are
ever read or written by the chain fixup; the remaining header fields
(version, merkle root, time, difficulty, nonce, solution) are collapsed
into `rest`, which the fixup carries through unchanged. -/
structure Header where
  previousBlockHash : Nat
  commitmentBytes : Nat
  rest : Nat
deriving DecidableEq

/-- A block: header plus ordered transactions. -/
structure Block where
  header : Header
  transactions : List Transaction
deriving DecidableEq

/-- Modelled from the spec: `Block::coinbase_height` reads the height of
the first transaction's coinbase input, if any. -/
def Block.coinbaseHeight (b : Block) : Option Nat :=
  match b.transactions with
  | tx :: _ =>
    match tx.inputs with
    | Input.coinbase h :: _ => some h
    | _ => none
  | [] => none

/-- One entry of the history tree: a block together with the two
note-commitment-tree roots it was pushed with.  Modelled from the spec:
the history tree is an append-only accumulator over block content plus the
two note-commitment roots; the note-commitment-tree root is modelled
injectively as the list of appended leaves. -/
structure HistoryEntry where
  block : Block
  saplingRoot : List Nat
  orchardRoot : List Nat
deriving DecidableEq

/-- The network's activation-height table: Heartwood and (optionally
defined) NU5 activation heights. -/
structure Network where
  heartwoodActivation : Option Nat
  nu5Activation : Option Nat

/-- The external digest functions used by the fixup, as abstract oracles:
transaction hashing, block hashing, the history-tree root digest
(`HistoryTree::hash`, which may be empty), the authorizing-data root over a
block's transactions, and `ChainHistoryBlockTxAuthCommitmentHash::from_commitments`. -/
structure Oracles where
  txHash : Transaction → Nat
  blockHash : Block → Nat
  historyRoot : List HistoryEntry → Option Nat
  authDataRoot : List Transaction → Nat
  fromCommitments : Nat → Nat → Nat

/-- The caller-supplied validity check
(`check_transparent_coinbase_spend`), as a pure predicate; the source's
`Result<T, E>` is only ever inspected through `is_ok`. -/
abbrev SpendCheck := OutPoint → CoinbaseSpendRestriction → OrderedUtxo → Bool

/-- The UTXO ledger: `HashMap<OutPoint, OrderedUtxo>` modelled as an
association list whose order is the (input-deterministic but otherwise
unspecified) iteration order of the map. -/
abbrev Ledger := List (OutPoint × OrderedUtxo)

/-- Key membership in the ledger (`HashMap::contains_key`). -/
def Ledger.containsKey (l : Ledger) (k : OutPoint) : Bool :=
  l.any (fun p => p.1 == k)

/-- `HashMap::remove`: returns the stored value and the ledger without the
key, or `none` when the key is absent. -/
def Ledger.removeEntry (l : Ledger) (k : OutPoint) : Option (OrderedUtxo × Ledger) :=
  match l.find? (fun p => p.1 == k) with
  | some p => some (p.2, l.filter (fun q => q.1 != k))
  | none => none

/-- `HashMap::insert` (overwriting the key if present). -/
def Ledger.insertEntry (l : Ledger) (k : OutPoint) (v : OrderedUtxo) : Ledger :=
  l.filter (fun q => q.1 != k) ++ [(k, v)]

/-- `HashMap::extend`: insert every new entry in order. -/
def Ledger.extendEntries (l : Ledger) (news : List (OutPoint × OrderedUtxo)) : Ledger :=
  news.foldl (fun acc p => Ledger.insertEntry acc p.1 p.2) l

/-- Insert into the spent-outputs map (`HashMap<OutPoint, Output>`). -/
def insertSpentOutput (spent : List (OutPoint × Output)) (k : OutPoint) (v : Output) :
    List (OutPoint × Output) :=
  spent.filter (fun q => q.1 != k) ++ [(k, v)]

/-- Modelled from the spec: `transparent::new_transaction_ordered_outputs`
records every transparent output of the transaction, keyed by its own
outpoint, tagging coinbase status and creation height. -/
def newTransactionOrderedOutputs (tx : Transaction) (txhash : Nat)
    (txIndexInBlock : Nat) (height : Nat) : List (OutPoint × OrderedUtxo) :=
  tx.outputs.enum.map (fun p => (⟨txhash, p.1⟩, ⟨⟨p.2, height, tx.isCoinbase⟩, txIndexInBlock⟩))

/-- The search loop of `find_valid_utxo_for_spend`.  The source iterates
`while let Some(..) = utxos.iter().next()` over an immutable map, counting
`attempts` upwards and aborting with `None` once `attempts > 100`; here
`remaining` counts the candidate examinations still allowed
(`remaining = 101 - attempts`, starting at 100), so that at most 100
examinations perform validity-check probes.  Returns the selected
outpoint (if any), whether the second, transparent-output-deleting probe
was the one that succeeded, and the total number of validity-check probes. -/
def findValidUtxoLoop (check : SpendCheck) (hasShieldedOutputs : Bool)
    (deleteTransparentOutputs : CoinbaseSpendRestriction) (utxos : Ledger)
    (spendRestriction : CoinbaseSpendRestriction) :
    Nat → Nat → Option OutPoint × Bool × Nat
  | remaining, probes =>
    match utxos.head? with
    | none => (none, false, probes)
    | some (candidateOutpoint, candidateUtxo) =>
      match remaining with
      | 0 => (none, false, probes)
      | remaining + 1 =>
        if check candidateOutpoint spendRestriction candidateUtxo then
          (some candidateOutpoint, false, probes + 1)
        else if hasShieldedOutputs &&
            check candidateOutpoint deleteTransparentOutputs candidateUtxo then
          (some candidateOutpoint, true, probes + 2)
        else
          findValidUtxoLoop check hasShieldedOutputs deleteTransparentOutputs utxos
            spendRestriction remaining (probes + (if hasShieldedOutputs then 2 else 1))

/-- `find_valid_utxo_for_spend`.  The source mutates `transaction` (its
transparent outputs are cleared when the second probe succeeds) and
`spend_restriction` in place; here both are returned explicitly, together
with the number of validity-check probes performed. -/
def findValidUtxoForSpend (check : SpendCheck) (tx : Transaction)
    (spendRestriction : CoinbaseSpendRestriction) (spendHeight : Nat) (utxos : Ledger) :
    Option OutPoint × Transaction × CoinbaseSpendRestriction × Nat :=
  let deleteTransparentOutputs := CoinbaseSpendRestriction.onlyShieldedOutputs spendHeight
  match findValidUtxoLoop check tx.hasShieldedOutputs deleteTransparentOutputs utxos
      spendRestriction 100 0 with
  | (some o, true, probes) => (some o, {tx with outputs := []}, deleteTransparentOutputs, probes)
  | (some o, false, probes) => (some o, tx, spendRestriction, probes)
  | (none, _, probes) => (none, tx, spendRestriction, probes)

/-- The input-fixing loop of `fix_generated_transaction` (lines 574-598):
for each original input referencing a previous output, select a UTXO via
`find_valid_utxo_for_spend`; on success rebind the input, remove the UTXO
from the ledger (its absence is a contract violation, `expect`, modelled as
the fatal `none`), and record the spent output; on failure drop the input
silently.  Coinbase inputs pass through unchanged. -/
def fixInputs (check : SpendCheck) (height : Nat) :
    List Input → Transaction → CoinbaseSpendRestriction → Ledger → List Input →
    List (OutPoint × Output) →
    Option (Transaction × CoinbaseSpendRestriction × Ledger × List Input ×
      List (OutPoint × Output))
  | [], tx, sr, utxos, newInputs, spentOutputs => some (tx, sr, utxos, newInputs, spentOutputs)
  | Input.prevOut _ :: rest, tx, sr, utxos, newInputs, spentOutputs =>
    match findValidUtxoForSpend check tx sr height utxos with
    | (some selectedOutpoint, tx1, sr1, _) =>
      match Ledger.removeEntry utxos selectedOutpoint with
      | some (spentUtxo, utxos1) =>
        fixInputs check height rest tx1 sr1 utxos1
          (newInputs ++ [Input.prevOut selectedOutpoint])
          (insertSpentOutput spentOutputs selectedOutpoint spentUtxo.utxo.output)
      | none => none
    | (none, tx1, sr1, _) => fixInputs check height rest tx1 sr1 utxos newInputs spentOutputs
  | Input.coinbase h :: rest, tx, sr, utxos, newInputs, spentOutputs =>
    fixInputs check height rest tx sr utxos (newInputs ++ [Input.coinbase h]) spentOutputs

/-- `fix_generated_transaction`.  Returns `none` for the fatal paths (a
selected outpoint without a UTXO, or a failed value-pool fix, both
`expect`s in the source); returns `some (none, ..)` when the transaction is
dropped by the drop rule, and `some (some tx, ..)` when it is kept.  The
new pool balances are committed and the transaction's outputs recorded
into the ledger only for kept transactions at `height > 0`. -/
def fixGeneratedTransaction (g : Oracles) (check : SpendCheck) (transaction : Transaction)
    (txIndexInBlock : Nat) (height : Nat) (chainValuePools : ValueBalance) (utxos : Ledger) :
    Option (Option Transaction × ValueBalance × Ledger) :=
  let spendRestriction := transaction.coinbaseSpendRestriction height
  match fixInputs check height transaction.inputs transaction spendRestriction utxos [] [] with
  | none => none
  | some (tx1, _, utxos1, newInputs, spentOutputs) =>
    let tx2 := { tx1 with inputs := newInputs }
    match fixChainValuePools chainValuePools spentOutputs tx2 with
    | none => none
    | some newChainValuePools =>
      if tx2.hasTransparentOrShieldedInputs then
        if 0 < height then
          some (some tx2, newChainValuePools,
            Ledger.extendEntries utxos1
              (newTransactionOrderedOutputs tx2 (g.txHash tx2) txIndexInBlock height))
        else some (some tx2, chainValuePools, utxos1)
      else some (none, chainValuePools, utxos1)

/-- Modelled from the spec: note-commitment-tree capacity; `append` fails
fatally when it is exhausted. -/
def noteCommitmentTreeCapacity : Nat := 2 ^ 32

/-- Modelled from the spec: `NoteCommitmentTree::append`; the tree is the
list of appended leaves and its root is that list. -/
def appendNoteCommitment (tree : List Nat) (c : Nat) : Option (List Nat) :=
  if tree.length < noteCommitmentTreeCapacity then some (tree ++ [c]) else none

/-- Append a list of note commitments in order, failing if any append fails. -/
def appendNoteCommitments : List Nat → List Nat → Option (List Nat)
  | tree, [] => some tree
  | tree, c :: cs =>
    match appendNoteCommitment tree c with
    | some tree1 => appendNoteCommitments tree1 cs
    | none => none

/-- The state threaded by the chain fixup: previous block hash, UTXO
ledger, chain value pools, the two note-commitment trees, and the lazily
created history tree. -/
structure ChainState where
  previousBlockHash : Option Nat
  utxos : Ledger
  chainValuePools : ValueBalance
  saplingTree : List Nat
  orchardTree : List Nat
  historyTree : Option (List HistoryEntry)
deriving DecidableEq

/-- The per-block transaction loop of the fixup (lines 437-462): fix each
transaction in order (the index enumerates all original transactions,
dropped ones included); for each kept transaction, when commitments are
generated and the block is not at height 0, append its note commitments to
the two trees (a failed append is fatal). -/
def processTransactions (g : Oracles) (check : SpendCheck)
    (generateValidCommitments : Bool) (height : Nat) :
    List Transaction → Nat → ValueBalance → Ledger → List Nat → List Nat →
    Option (List Transaction × ValueBalance × Ledger × List Nat × List Nat)
  | [], _, pools, utxos, saplingTree, orchardTree =>
    some ([], pools, utxos, saplingTree, orchardTree)
  | tx :: rest, txIndexInBlock, pools, utxos, saplingTree, orchardTree =>
    match fixGeneratedTransaction g check tx txIndexInBlock height pools utxos with
    | none => none
    | some (none, pools1, utxos1) =>
      processTransactions g check generateValidCommitments height rest
        (txIndexInBlock + 1) pools1 utxos1 saplingTree orchardTree
    | some (some tx1, pools1, utxos1) =>
      if generateValidCommitments && height != 0 then
        match appendNoteCommitments saplingTree tx1.saplingNoteCommitments with
        | none => none
        | some saplingTree1 =>
          match appendNoteCommitments orchardTree tx1.orchardNoteCommitments with
          | none => none
          | some orchardTree1 =>
            match processTransactions g check generateValidCommitments height rest
                (txIndexInBlock + 1) pools1 utxos1 saplingTree1 orchardTree1 with
            | none => none
            | some (newTxs, pools2, utxos2, s2, o2) =>
              some (tx1 :: newTxs, pools2, utxos2, s2, o2)
      else
        match processTransactions g check generateValidCommitments height rest
            (txIndexInBlock + 1) pools1 utxos1 saplingTree orchardTree with
        | none => none
        | some (newTxs, pools2, utxos2, s2, o2) =>
          some (tx1 :: newTxs, pools2, utxos2, s2, o2)

/-- Overwrite a block header's commitment bytes. -/
def setCommitment (b : Block) (c : Nat) : Block :=
  { b with header := { b.header with commitmentBytes := c } }

/-- The history-tree root used for commitments: the tree's digest, with the
all-zero fallback when the tree is absent or its digest is empty. -/
def histRootOrZero (g : Oracles) (historyTree : Option (List HistoryEntry)) : Nat :=
  match historyTree with
  | some t => (g.historyRoot t).getD 0
  | none => 0

/-- The commitment value chosen by the fixup (lines 474-506), as a function
of the network's activation heights, the history tree as of immediately
before this block, the block's coinbase height, and the block's (fixed)
transactions.  The three regions of the source's `match current_height.cmp(&heartwood_height)`
are mirrored here: pre-Heartwood the reserved placeholder (low byte 1),
at Heartwood activation the all-zero sentinel, above Heartwood the prior
history-tree root, combined with the authorizing-data root from NU5 on. -/
def commitmentValue (g : Oracles) (net : Network) (historyTree : Option (List HistoryEntry))
    (currentHeight heartwoodHeight : Nat) (txs : List Transaction) : Nat :=
  if currentHeight < heartwoodHeight then 1
  else if currentHeight = heartwoodHeight then 0
  else
    let historyTreeRoot := histRootOrZero g historyTree
    match net.nu5Activation with
    | some nu5Height =>
      if nu5Height ≤ currentHeight then
        g.fromCommitments historyTreeRoot (g.authDataRoot txs)
      else historyTreeRoot
    | none => historyTreeRoot

/-- One iteration of the per-block fixup loop (lines 431-535): fix the
previous block hash, fix the transactions, fix the commitment (three height
regions relative to Heartwood, with the NU5 sub-case), lazily create or
push the history tree, and compute this block's hash for the next block.
The `unwrap`s on `coinbase_height` and the Heartwood activation height are
the fatal `none`s. -/
def processBlock (g : Oracles) (check : SpendCheck) (net : Network)
    (generateValidCommitments : Bool) (st : ChainState) (height : Nat) (b0 : Block) :
    Option (Block × ChainState) :=
  let b1 := match st.previousBlockHash with
    | some h => { b0 with header := { b0.header with previousBlockHash := h } }
    | none => b0
  match processTransactions g check generateValidCommitments height b1.transactions 0
      st.chainValuePools st.utxos st.saplingTree st.orchardTree with
  | none => none
  | some (newTxs, pools1, utxos1, saplingTree1, orchardTree1) =>
    let b2 := { b1 with transactions := newTxs }
    if generateValidCommitments then
      match b2.coinbaseHeight, net.heartwoodActivation with
      | some currentHeight, some heartwoodHeight =>
        let b3 := setCommitment b2
          (commitmentValue g net st.historyTree currentHeight heartwoodHeight b2.transactions)
        let newHistoryTree :=
          match st.historyTree with
          | none => some [HistoryEntry.mk b3 saplingTree1 orchardTree1]
          | some t => some (t ++ [HistoryEntry.mk b3 saplingTree1 orchardTree1])
        some (b3, ⟨some (g.blockHash b3), utxos1, pools1, saplingTree1, orchardTree1,
          newHistoryTree⟩)
      | _, _ => none
    else
      some (b2, ⟨some (g.blockHash b2), utxos1, pools1, saplingTree1, orchardTree1,
        st.historyTree⟩)

/-- The fold of the fixup closure of `partial_chain_strategy` over the
candidate `(height, block)` pairs, from an explicit starting state. -/
def chainFixupAux (g : Oracles) (check : SpendCheck) (net : Network)
    (generateValidCommitments : Bool) :
    ChainState → List (Nat × Block) → Option (List Block × ChainState)
  | st, [] => some ([], st)
  | st, (height, b) :: rest =>
    match processBlock g check net generateValidCommitments st height b with
    | none => none
    | some (b1, st1) =>
      match chainFixupAux g check net generateValidCommitments st1 rest with
      | none => none
      | some (out, st2) => some (b1 :: out, st2)

/-- The initial state of the fixup closure: no previous hash, empty ledger,
zero value pools, empty trees, no history tree. -/
def initialChainState : ChainState :=
  ⟨none, [], ValueBalance.zero, [], [], none⟩

/-- The whole fixup of `partial_chain_strategy` applied to the generated
candidate `(height, block)` pairs. -/
def chainFixup (g : Oracles) (check : SpendCheck) (net : Network)
    (generateValidCommitments : Bool) (blocks : List (Nat × Block)) :
    Option (List Block × ChainState) :=
  chainFixupAux g check net generateValidCommitments initialChainState blocks

/-! Concrete instances used by witnesses and counterexamples. -/

/-- A concrete oracle bundle for evaluating the model. -/
def oraclesEx : Oracles :=
  ⟨fun _ => 0, fun _ => 5, fun _ => some 9, fun _ => 0, fun a b => a + b⟩

/-- A validity check that always fails. -/
def alwaysFailCheck : SpendCheck := fun _ _ _ => false

/-- The `allow_all_transparent_coinbase_spends` check: always succeeds. -/
def alwaysOkCheck : SpendCheck := fun _ _ _ => true

/-- A transaction with one transparent spend and a sapling note commitment
(so it carries shielded outputs). -/
def shieldedTxEx : Transaction := ⟨[Input.prevOut ⟨0, 0⟩], [], false, [42], [], 0, 0, 0⟩

/-- A concrete ledger entry. -/
def utxoEx : OrderedUtxo := ⟨⟨⟨3⟩, 1, true⟩, 0⟩

/-- A coinbase-only transaction creating one output of value 7. -/
def coinbaseTxEx (h : Nat) : Transaction := ⟨[Input.coinbase h], [⟨7⟩], false, [], [], 0, 0, 0⟩

/-- A candidate block with one coinbase transaction. -/
def blockEx (h : Nat) : Block := ⟨⟨99, 88, 77⟩, [coinbaseTxEx h]⟩

/-- A network with Heartwood active at height 5 and NU5 undefined. -/
def netEx : Network := ⟨some 5, none⟩

/-- A chain state whose history tree already holds one entry and whose
note-commitment trees are empty. -/
def c8StateEx : ChainState :=
  ⟨none, [], ValueBalance.zero, [], [], some [⟨blockEx 1, [], []⟩]⟩

/-- A candidate block whose single (kept) transaction carries one sapling
note commitment. -/
def c8BlockEx : Block := ⟨⟨11, 22, 33⟩, [⟨[Input.coinbase 3], [], false, [42], [], 0, 0, 0⟩]⟩

/-- The outpoints referenced by the previous-output inputs of a list of
inputs. -/
def prevOutpoints (inputs : List Input) : List OutPoint :=
  inputs.filterMap (fun i => match i with
    | Input.prevOut o => some o
    | Input.coinbase _ => none)

/-- The inputs that survive the input-fixing loop when every UTXO search
fails: coinbase inputs pass through, previous-output inputs are dropped. -/
def keptCoinbaseInputs (inputs : List Input) : List Input :=
  inputs.filter (fun i => match i with
    | Input.prevOut _ => false
    | Input.coinbase _ => true)

/-! Helper lemmas about the UTXO search loop. -/

/-- Each allowed examination performs at most two validity-check probes. -/
theorem findValidUtxoLoop_probes_le (check : SpendCheck) (hso : Bool)
    (delR : CoinbaseSpendRestriction) (utxos : Ledger) (sr : CoinbaseSpendRestriction) :
    ∀ fuel probes, (findValidUtxoLoop check hso delR utxos sr fuel probes).2.2 ≤
      probes + 2 * fuel := by
  intro fuel
  induction fuel with
  | zero =>
    intro probes
    unfold findValidUtxoLoop
    cases h : utxos.head? with
    | none => simp
    | some e => cases e with | mk o u => simp
  | succ n ih =>
    intro probes
    unfold findValidUtxoLoop
    cases h : utxos.head? with
    | none => simp
    | some e =>
      cases e with | mk o u =>
      dsimp only
      split
      · dsimp only; omega
      · split
        · dsimp only; omega
        · exact le_trans (ih _) (by split <;> omega)

/-- The loop result only depends on the first ledger entry. -/
theorem findValidUtxoLoop_head_only (check : SpendCheck) (hso : Bool)
    (delR : CoinbaseSpendRestriction) (e : OutPoint × OrderedUtxo) (rest : Ledger)
    (sr : CoinbaseSpendRestriction) :
    ∀ fuel probes, findValidUtxoLoop check hso delR (e :: rest) sr fuel probes =
      findValidUtxoLoop check hso delR [e] sr fuel probes := by
  intro fuel
  induction fuel with
  | zero => intro probes; unfold findValidUtxoLoop; rfl
  | succ n ih =>
    intro probes
    unfold findValidUtxoLoop
    cases e with | mk o u =>
    dsimp only [List.head?]
    split
    · rfl
    · split
      · rfl
      · exact ih _

/-- When both probes fail on the first entry, the loop never selects. -/
theorem findValidUtxoLoop_fail (check : SpendCheck) (hso : Bool)
    (delR : CoinbaseSpendRestriction) (e : OutPoint × OrderedUtxo) (rest : Ledger)
    (sr : CoinbaseSpendRestriction)
    (h1 : check e.1 sr e.2 = false) (h2 : (hso && check e.1 delR e.2) = false) :
    ∀ fuel probes, (findValidUtxoLoop check hso delR (e :: rest) sr fuel probes).1 = none := by
  intro fuel
  induction fuel with
  | zero =>
    intro probes; unfold findValidUtxoLoop
    cases e with | mk o u => rfl
  | succ n ih =>
    intro probes
    unfold findValidUtxoLoop
    cases e with | mk o u =>
    dsimp only [List.head?]
    simp only [h1, h2] at *
    simp only [Bool.false_eq_true, if_false]
    exact ih _

/-- When a probe succeeds on the first entry, the loop selects it. -/
theorem findValidUtxoLoop_first_ok (check : SpendCheck) (hso : Bool)
    (delR : CoinbaseSpendRestriction) (e : OutPoint × OrderedUtxo) (rest : Ledger)
    (sr : CoinbaseSpendRestriction) (fuel probes : Nat) (hf : fuel ≠ 0)
    (h : check e.1 sr e.2 = true ∨ (hso && check e.1 delR e.2) = true) :
    (findValidUtxoLoop check hso delR (e :: rest) sr fuel probes).1 = some e.1 := by
  cases fuel with
  | zero => exact absurd rfl hf
  | succ n =>
    unfold findValidUtxoLoop
    cases e with | mk o u =>
    dsimp only [List.head?]
    rcases h with h | h
    · simp [h]
    · rcases hc : check o sr u
      · simp only at h; simp [hc, h]
      · simp [hc]

/-- The selected outpoint of `findValidUtxoForSpend` is the loop's. -/
theorem findValidUtxoForSpend_fst (check : SpendCheck) (tx : Transaction)
    (sr : CoinbaseSpendRestriction) (spendHeight : Nat) (utxos : Ledger) :
    (findValidUtxoForSpend check tx sr spendHeight utxos).1 =
      (findValidUtxoLoop check tx.hasShieldedOutputs
        (CoinbaseSpendRestriction.onlyShieldedOutputs spendHeight) utxos sr 100 0).1 := by
  unfold findValidUtxoForSpend
  rcases hl : findValidUtxoLoop check tx.hasShieldedOutputs
      (CoinbaseSpendRestriction.onlyShieldedOutputs spendHeight) utxos sr 100 0 with ⟨o, b, probes⟩
  rcases o with _ | o <;> rcases b <;> simp [hl]

/-- C10: in every loop iteration the selector examines only the first
entry of the (unmutated) UTXO map's iteration order: its result on a
non-empty map equals its result on the map holding only the first entry,
and it selects that entry's outpoint exactly when one of the two probes
passes on it, returning none otherwise — no other ledger entry is ever
tested. -/
theorem claim_C10_first_entry_only (check : SpendCheck) (tx : Transaction)
    (sr : CoinbaseSpendRestriction) (spendHeight : Nat) (e : OutPoint × OrderedUtxo)
    (rest : Ledger) :
    findValidUtxoForSpend check tx sr spendHeight (e :: rest) =
      findValidUtxoForSpend check tx sr spendHeight [e] ∧
    (findValidUtxoForSpend check tx sr spendHeight (e :: rest)).1 =
      (if check e.1 sr e.2 ||
          (tx.hasShieldedOutputs &&
            check e.1 (CoinbaseSpendRestriction.onlyShieldedOutputs spendHeight) e.2) then
        some e.1 else none) := by
  constructor
  · unfold findValidUtxoForSpend
    dsimp only
    rw [findValidUtxoLoop_head_only check tx.hasShieldedOutputs
      (CoinbaseSpendRestriction.onlyShieldedOutputs spendHeight) e rest sr 100 0]
  · rw [findValidUtxoForSpend_fst]
    rcases h1 : check e.1 sr e.2
    · rcases h2 : tx.hasShieldedOutputs &&
          check e.1 (CoinbaseSpendRestriction.onlyShieldedOutputs spendHeight) e.2
      · rw [findValidUtxoLoop_fail check _ _ e rest sr h1 h2]
        simp [h1, h2]
      · rw [findValidUtxoLoop_first_ok check _ _ e rest sr 100 0 (by omega) (Or.inr h2)]
        simp [h1, h2]
    · rw [findValidUtxoLoop_first_ok check _ _ e rest sr 100 0 (by omega) (Or.inl h1)]
      simp [h1]

/-- C5 counterexample: a single selector call on a transaction carrying
shielded outputs, with a check that always fails, performs 200
validity-check probes (two per examination for 100 examinations) — more
than 100 — before aborting with none. -/
theorem claim_C5_counterexample :
    (findValidUtxoForSpend alwaysFailCheck shieldedTxEx
        CoinbaseSpendRestriction.someTransparentOutputs 7 [(⟨1, 1⟩, utxoEx)]).2.2.2 = 200 ∧
    ¬ (findValidUtxoForSpend alwaysFailCheck shieldedTxEx
        CoinbaseSpendRestriction.someTransparentOutputs 7 [(⟨1, 1⟩, utxoEx)]).2.2.2 ≤ 100 ∧
    (findValidUtxoForSpend alwaysFailCheck shieldedTxEx
        CoinbaseSpendRestriction.someTransparentOutputs 7 [(⟨1, 1⟩, utxoEx)]).1 = none := by
  decide

/-- C5 (amended): no single selector call invokes the caller-supplied
validity check more than 200 times: the loop performs at most 100
candidate examinations, each probing the check at most twice. -/
theorem claim_C5_probe_bound (check : SpendCheck) (tx : Transaction)
    (sr : CoinbaseSpendRestriction) (spendHeight : Nat) (utxos : Ledger) :
    (findValidUtxoForSpend check tx sr spendHeight utxos).2.2.2 ≤ 200 := by
  have hb := findValidUtxoLoop_probes_le check tx.hasShieldedOutputs
    (CoinbaseSpendRestriction.onlyShieldedOutputs spendHeight) utxos sr 100 0
  unfold findValidUtxoForSpend
  rcases hl : findValidUtxoLoop check tx.hasShieldedOutputs
      (CoinbaseSpendRestriction.onlyShieldedOutputs spendHeight) utxos sr 100 0 with ⟨o, b, probes⟩
  rw [hl] at hb
  rcases o with _ | o <;> rcases b <;> simp_all

/-- C6: the fixup is a deterministic fold — two runs on identical candidate
input, with the same validity check and the same (fixed) ledger iteration
order, produce identical output chains. -/
theorem claim_C6_deterministic (g : Oracles) (check : SpendCheck) (net : Network)
    (generateValidCommitments : Bool) (blocks1 blocks2 : List (Nat × Block))
    (hin : blocks1 = blocks2) :
    chainFixup g check net generateValidCommitments blocks1 =
      chainFixup g check net generateValidCommitments blocks2 := by
  rw [hin]

/-- C6 witness: the determinism theorem applied at a concrete input. -/
theorem claim_C6_witness :
    ([(10, blockEx 10)] : List (Nat × Block)) = [(10, blockEx 10)] ∧
    chainFixup oraclesEx alwaysOkCheck netEx true [(10, blockEx 10)] =
      chainFixup oraclesEx alwaysOkCheck netEx true [(10, blockEx 10)] :=
  ⟨rfl, claim_C6_deterministic oraclesEx alwaysOkCheck netEx true _ _ rfl⟩

theorem processBlock_state_prev (g : Oracles) (check : SpendCheck) (net : Network)
    (gvc : Bool) (st : ChainState) (height : Nat) (b : Block) (b1 : Block) (st1 : ChainState)
    (hp : processBlock g check net gvc st height b = some (b1, st1)) :
    st1.previousBlockHash = some (g.blockHash b1) := by
  unfold processBlock at hp
  repeat' first
    | split at hp
    | dsimp only at hp
  all_goals first
    | (simp only [Option.some.injEq, Prod.mk.injEq] at hp
       obtain ⟨hb, hs⟩ := hp
       subst hb
       subst hs
       rfl)
    | simp at hp

theorem processBlock_prev_of_some (g : Oracles) (check : SpendCheck) (net : Network)
    (gvc : Bool) (st : ChainState) (height : Nat) (b : Block) (b1 : Block) (st1 : ChainState)
    (hh : Nat) (hst : st.previousBlockHash = some hh)
    (hp : processBlock g check net gvc st height b = some (b1, st1)) :
    b1.header.previousBlockHash = hh := by
  unfold processBlock at hp
  rw [hst] at hp
  repeat' first
    | split at hp
    | dsimp only at hp
  all_goals first
    | (simp only [Option.some.injEq, Prod.mk.injEq] at hp
       obtain ⟨hb, hs⟩ := hp
       subst hb
       subst hs
       rfl)
    | (simp only [Option.some.injEq, Prod.mk.injEq] at hp
       obtain ⟨hb, hs⟩ := hp
       subst hb
       subst hs
       simp_all [setCommitment])
    | simp_all [setCommitment]

theorem chainFixupAux_chain (g : Oracles) (check : SpendCheck) (net : Network)
    (gvc : Bool) :
    ∀ (blocks : List (Nat × Block)) (st : ChainState) (out : List Block) (st2 : ChainState),
    chainFixupAux g check net gvc st blocks = some (out, st2) →
    (∀ hh bh, st.previousBlockHash = some hh → out.head? = some bh →
      bh.header.previousBlockHash = hh) ∧
    (∀ i bi bj, out.get? i = some bi → out.get? (i + 1) = some bj →
      bj.header.previousBlockHash = g.blockHash bi) := by
  intro blocks
  induction blocks with
  | nil =>
    intro st out st2 hr
    unfold chainFixupAux at hr
    simp only [Option.some.injEq, Prod.mk.injEq] at hr
    obtain ⟨ho, hs⟩ := hr
    subst ho
    refine ⟨?_, ?_⟩
    · intro hh bh hstp hhead
      simp at hhead
    · intro i bi bj hi hj
      simp at hi
  | cons hb rest ih =>
    intro st out st2 hr
    obtain ⟨height, b⟩ := hb
    unfold chainFixupAux at hr
    rcases hpb : processBlock g check net gvc st height b with _ | ⟨b1, st1⟩ <;> rw [hpb] at hr
    · simp at hr
    · dsimp only at hr
      rcases haux : chainFixupAux g check net gvc st1 rest with _ | ⟨out1, st3⟩ <;>
        rw [haux] at hr
      · simp at hr
      · simp only [Option.some.injEq, Prod.mk.injEq] at hr
        obtain ⟨ho, hs⟩ := hr
        subst ho
        obtain ⟨ihhead, ihchain⟩ := ih st1 out1 st3 haux
        have hstp := processBlock_state_prev g check net gvc st height b b1 st1 hpb
        constructor
        · intro hh bh hsthh hhead
          have h1 := processBlock_prev_of_some g check net gvc st height b b1 st1 hh hsthh hpb
          simp only [List.head?_cons, Option.some.injEq] at hhead
          first
            | rwa [← hhead]
            | rwa [hhead]
        · intro i bi bj hi hj
          cases i with
          | zero =>
            simp only [List.get?_cons_zero, Option.some.injEq] at hi
            simp only [List.get?_cons_succ] at hj
            have hj2 : out1.head? = some bj := by
              rw [← List.get?_zero]
              exact hj
            have h1 := ihhead (g.blockHash b1) bj hstp hj2
            first
              | rwa [← hi] at h1
              | rwa [hi] at h1
          | succ n =>
            simp only [List.get?_cons_succ] at hi hj
            exact ihchain n bi bj hi hj

/-- C1: in every chain produced by the fixup of `partial_chain_strategy`,
each output block's previous-hash field equals the hash of the repaired
previous output block. -/
theorem claim_C1_previous_hash_chain (g : Oracles) (check : SpendCheck) (net : Network)
    (generateValidCommitments : Bool) (blocks : List (Nat × Block)) (out : List Block)
    (st2 : ChainState)
    (hr : chainFixup g check net generateValidCommitments blocks = some (out, st2))
    (i : Nat) (bi bj : Block) (hi : out.get? i = some bi) (hj : out.get? (i + 1) = some bj) :
    bj.header.previousBlockHash = g.blockHash bi :=
  (chainFixupAux_chain g check net generateValidCommitments blocks initialChainState out st2
    hr).2 i bi bj hi hj

/-- C1 witness: a concrete two-block run whose second output block carries
the hash of the first. -/
theorem claim_C1_witness :
    chainFixup oraclesEx alwaysOkCheck netEx false [(1, ⟨⟨7, 7, 7⟩, []⟩), (2, ⟨⟨8, 8, 8⟩, []⟩)] =
      some ([⟨⟨7, 7, 7⟩, []⟩, ⟨⟨5, 8, 8⟩, []⟩],
        ⟨some 5, [], ValueBalance.zero, [], [], none⟩) ∧
    (⟨⟨5, 8, 8⟩, []⟩ : Block).header.previousBlockHash = oraclesEx.blockHash ⟨⟨7, 7, 7⟩, []⟩ :=
  ⟨by decide,
    claim_C1_previous_hash_chain oraclesEx alwaysOkCheck netEx false
      [(1, ⟨⟨7, 7, 7⟩, []⟩), (2, ⟨⟨8, 8, 8⟩, []⟩)]
      [⟨⟨7, 7, 7⟩, []⟩, ⟨⟨5, 8, 8⟩, []⟩] ⟨some 5, [], ValueBalance.zero, [], [], none⟩
      (by decide) 0 ⟨⟨7, 7, 7⟩, []⟩ ⟨⟨5, 8, 8⟩, []⟩ (by decide) (by decide)⟩

/-! Value-pool non-negativity. -/

theorem fixChainValuePools_nonneg (pools : ValueBalance) (spent : List (OutPoint × Output))
    (tx : Transaction) (p : ValueBalance) (h : fixChainValuePools pools spent tx = some p) :
    p.allNonNeg := by
  unfold fixChainValuePools at h
  dsimp only at h
  split at h
  · simp only [Option.some.injEq] at h
    subst h
    assumption
  · exact absurd h (by simp)

theorem fixGeneratedTransaction_nonneg (g : Oracles) (check : SpendCheck) (tx : Transaction)
    (idx height : Nat) (pools : ValueBalance) (utxos : Ledger)
    (res : Option Transaction) (pools1 : ValueBalance) (utxos1 : Ledger)
    (hnn : pools.allNonNeg)
    (h : fixGeneratedTransaction g check tx idx height pools utxos = some (res, pools1, utxos1)) :
    pools1.allNonNeg := by
  unfold fixGeneratedTransaction at h
  repeat' first
    | split at h
    | dsimp only at h
  all_goals first
    | (simp only [Option.some.injEq, Prod.mk.injEq] at h
       obtain ⟨h1, h2, h3⟩ := h
       subst h2
       first
         | exact fixChainValuePools_nonneg _ _ _ _ (by assumption)
         | exact hnn
         | simp_all)
    | simp_all

theorem processTransactions_nonneg (g : Oracles) (check : SpendCheck) (gvc : Bool)
    (height : Nat) :
    ∀ (txs : List Transaction) (idx : Nat) (pools : ValueBalance) (utxos : Ledger)
      (sT oT : List Nat) (newTxs : List Transaction) (pools1 : ValueBalance)
      (utxos1 : Ledger) (s1 o1 : List Nat),
    pools.allNonNeg →
    processTransactions g check gvc height txs idx pools utxos sT oT =
      some (newTxs, pools1, utxos1, s1, o1) →
    pools1.allNonNeg := by
  intro txs
  induction txs with
  | nil =>
    intro idx pools utxos sT oT newTxs pools1 utxos1 s1 o1 hnn h
    unfold processTransactions at h
    simp only [Option.some.injEq, Prod.mk.injEq] at h
    obtain ⟨h1, h2, h3⟩ := h
    subst h2
    exact hnn
  | cons t rest ih =>
    intro idx pools utxos sT oT newTxs pools1 utxos1 s1 o1 hnn h
    unfold processTransactions at h
    rcases hf : fixGeneratedTransaction g check t idx height pools utxos with _ | ⟨res, p1, u1⟩ <;>
      rw [hf] at h
    · simp at h
    · have hp1 : p1.allNonNeg :=
        fixGeneratedTransaction_nonneg g check t idx height pools utxos res p1 u1 hnn hf
      rcases res with _ | t1
      · dsimp only at h
        exact ih (idx + 1) p1 u1 sT oT newTxs pools1 utxos1 s1 o1 hp1 h
      · dsimp only at h
        split at h
        · rcases ha : appendNoteCommitments sT t1.saplingNoteCommitments with _ | sT1 <;>
            rw [ha] at h
          · simp at h
          · rcases hb : appendNoteCommitments oT t1.orchardNoteCommitments with _ | oT1 <;>
              rw [hb] at h
            · simp at h
            · dsimp only at h
              rcases hrec : processTransactions g check gvc height rest (idx + 1) p1 u1 sT1 oT1
                  with _ | ⟨nts, p2, u2, s2, o2⟩ <;> rw [hrec] at h
              · simp at h
              · dsimp only at h
                simp only [Option.some.injEq, Prod.mk.injEq] at h
                obtain ⟨h1, h2, h3⟩ := h
                subst h2
                exact ih (idx + 1) p1 u1 sT1 oT1 nts p2 u2 s2 o2 hp1 hrec
        · rcases hrec : processTransactions g check gvc height rest (idx + 1) p1 u1 sT oT
              with _ | ⟨nts, p2, u2, s2, o2⟩ <;> rw [hrec] at h
          · simp at h
          · dsimp only at h
            simp only [Option.some.injEq, Prod.mk.injEq] at h
            obtain ⟨h1, h2, h3⟩ := h
            subst h2
            exact ih (idx + 1) p1 u1 sT oT nts p2 u2 s2 o2 hp1 hrec

theorem processBlock_nonneg (g : Oracles) (check : SpendCheck) (net : Network) (gvc : Bool)
    (st : ChainState) (height : Nat) (b : Block) (b1 : Block) (st1 : ChainState)
    (hnn : st.chainValuePools.allNonNeg)
    (hp : processBlock g check net gvc st height b = some (b1, st1)) :
    st1.chainValuePools.allNonNeg := by
  unfold processBlock at hp
  rcases hst : st.previousBlockHash with _ | hh <;> rw [hst] at hp <;> dsimp only at hp <;>
  · rcases hpt : processTransactions g check gvc height _ 0 st.chainValuePools st.utxos
        st.saplingTree st.orchardTree with _ | ⟨newTxs, p1, u1, s1, o1⟩ <;> rw [hpt] at hp
    · simp at hp
    · have hp1 := processTransactions_nonneg g check gvc height _ 0 st.chainValuePools
        st.utxos st.saplingTree st.orchardTree newTxs p1 u1 s1 o1 hnn hpt
      dsimp only at hp
      repeat' first
        | split at hp
        | dsimp only at hp
      all_goals first
        | (simp only [Option.some.injEq, Prod.mk.injEq] at hp
           obtain ⟨hb, hs⟩ := hp
           subst hs
           exact hp1)
        | simp_all

theorem chainFixupAux_nonneg (g : Oracles) (check : SpendCheck) (net : Network) (gvc : Bool) :
    ∀ (blocks : List (Nat × Block)) (st : ChainState) (out : List Block) (st2 : ChainState),
    st.chainValuePools.allNonNeg →
    chainFixupAux g check net gvc st blocks = some (out, st2) →
    st2.chainValuePools.allNonNeg := by
  intro blocks
  induction blocks with
  | nil =>
    intro st out st2 hnn hr
    unfold chainFixupAux at hr
    simp only [Option.some.injEq, Prod.mk.injEq] at hr
    obtain ⟨h1, h2⟩ := hr
    subst h2
    exact hnn
  | cons hb rest ih =>
    intro st out st2 hnn hr
    obtain ⟨height, b⟩ := hb
    unfold chainFixupAux at hr
    rcases hpb : processBlock g check net gvc st height b with _ | ⟨b1, st1⟩ <;> rw [hpb] at hr
    · simp at hr
    · dsimp only at hr
      rcases haux : chainFixupAux g check net gvc st1 rest with _ | ⟨out1, st3⟩ <;>
        rw [haux] at hr
      · simp at hr
      · simp only [Option.some.injEq, Prod.mk.injEq] at hr
        obtain ⟨h1, h2⟩ := hr
        subst h2
        exact ih st1 out1 _
          (processBlock_nonneg g check net gvc st height b b1 st1 hnn hpb) haux

/-- C2: after the fixup has processed any candidate sequence — in
particular any take-k front of a longer one — every chain value pool
balance in the resulting state is non-negative. -/
theorem claim_C2_pools_nonneg (g : Oracles) (check : SpendCheck) (net : Network)
    (generateValidCommitments : Bool) (blocks : List (Nat × Block)) (k : Nat)
    (out : List Block) (st : ChainState)
    (hr : chainFixup g check net generateValidCommitments (blocks.take k) = some (out, st)) :
    st.chainValuePools.allNonNeg :=
  chainFixupAux_nonneg g check net generateValidCommitments (blocks.take k) initialChainState
    out st (by constructor <;> simp [initialChainState, ValueBalance.zero]) hr

/-- C2 witness: the pool invariant at a concrete one-block run. -/
theorem claim_C2_witness :
    chainFixup oraclesEx alwaysOkCheck netEx true ([(10, blockEx 10)].take 1) =
      some ([⟨⟨99, 0, 77⟩, [coinbaseTxEx 10]⟩],
        ⟨some 5, [(⟨0, 0⟩, ⟨⟨⟨7⟩, 10, true⟩, 0⟩)], ⟨7, 0, 0, 0⟩, [], [],
          some [⟨⟨⟨99, 0, 77⟩, [coinbaseTxEx 10]⟩, [], []⟩]⟩) ∧
    (⟨7, 0, 0, 0⟩ : ValueBalance).allNonNeg :=
  ⟨by decide,
    claim_C2_pools_nonneg oraclesEx alwaysOkCheck netEx true [(10, blockEx 10)] 1
      [⟨⟨99, 0, 77⟩, [coinbaseTxEx 10]⟩]
      ⟨some 5, [(⟨0, 0⟩, ⟨⟨⟨7⟩, 10, true⟩, 0⟩)], ⟨7, 0, 0, 0⟩, [], [],
        some [⟨⟨⟨99, 0, 77⟩, [coinbaseTxEx 10]⟩, [], []⟩]⟩ (by decide)⟩

/-! History-tree push and commitment derivation. -/

/-- C8 counterexample: a concrete per-block step whose pushed history-tree
entry carries the sapling root [42] — the root after the block's own note
commitment was folded in — while the root observed before that block's
commitments were folded in was the empty root, so the entry's roots are
not the pre-block roots the claim requires. -/
theorem claim_C8_counterexample :
    ((processBlock oraclesEx alwaysOkCheck netEx true c8StateEx 3 c8BlockEx).map
      (fun p => (p.2.historyTree.getD []).map HistoryEntry.saplingRoot)) = some [[], [42]] ∧
    c8StateEx.saplingTree = [] ∧ ¬([42] : List Nat) = [] := by
  decide

/-- C8 (amended): every block after the first processed block is pushed
into the history tree together with the two note-commitment-tree roots as
of after that block's own note commitments were folded into the trees
(the trees of the post-block state). -/
theorem claim_C8_push_with_updated_roots (g : Oracles) (check : SpendCheck) (net : Network)
    (st : ChainState) (height : Nat) (b : Block) (b1 : Block) (st1 : ChainState)
    (t : List HistoryEntry) (hht : st.historyTree = some t)
    (hp : processBlock g check net true st height b = some (b1, st1)) :
    st1.historyTree = some (t ++ [⟨b1, st1.saplingTree, st1.orchardTree⟩]) := by
  unfold processBlock at hp
  rw [hht] at hp
  repeat' first
    | split at hp
    | dsimp only at hp
  all_goals first
    | (simp only [Option.some.injEq, Prod.mk.injEq] at hp
       obtain ⟨hb, hs⟩ := hp
       subst hb
       subst hs
       rfl)
    | (simp only [Option.some.injEq, Prod.mk.injEq] at hp
       obtain ⟨hb, hs⟩ := hp
       subst hb
       subst hs
       simp_all)
    | simp_all

/-- C8 witness: the amended push rule at a concrete input. -/
theorem claim_C8_witness :
    c8StateEx.historyTree = some [⟨blockEx 1, [], []⟩] ∧
    processBlock oraclesEx alwaysOkCheck netEx true c8StateEx 3 c8BlockEx =
      some (⟨⟨11, 1, 33⟩, [⟨[Input.coinbase 3], [], false, [42], [], 0, 0, 0⟩]⟩,
        ⟨some 5, [], ValueBalance.zero, [42], [],
          some [⟨blockEx 1, [], []⟩,
            ⟨⟨⟨11, 1, 33⟩, [⟨[Input.coinbase 3], [], false, [42], [], 0, 0, 0⟩]⟩, [42], []⟩]⟩) ∧
    (⟨some 5, [], ValueBalance.zero, [42], [],
        some [⟨blockEx 1, [], []⟩,
          ⟨⟨⟨11, 1, 33⟩, [⟨[Input.coinbase 3], [], false, [42], [], 0, 0, 0⟩]⟩, [42],
            []⟩]⟩ : ChainState).historyTree =
      some ([⟨blockEx 1, [], []⟩] ++
        [⟨⟨⟨11, 1, 33⟩, [⟨[Input.coinbase 3], [], false, [42], [], 0, 0, 0⟩]⟩, [42], []⟩]) :=
  ⟨rfl, by decide,
    claim_C8_push_with_updated_roots oraclesEx alwaysOkCheck netEx c8StateEx 3 c8BlockEx
      ⟨⟨11, 1, 33⟩, [⟨[Input.coinbase 3], [], false, [42], [], 0, 0, 0⟩]⟩
      ⟨some 5, [], ValueBalance.zero, [42], [],
        some [⟨blockEx 1, [], []⟩,
          ⟨⟨⟨11, 1, 33⟩, [⟨[Input.coinbase 3], [], false, [42], [], 0, 0, 0⟩]⟩, [42], []⟩]⟩
      [⟨blockEx 1, [], []⟩] rfl (by decide)⟩

theorem processBlock_commitment (g : Oracles) (check : SpendCheck) (net : Network)
    (st : ChainState) (height : Nat) (b : Block) (b1 : Block) (st1 : ChainState)
    (ch hw : Nat)
    (hp : processBlock g check net true st height b = some (b1, st1))
    (hch : b1.coinbaseHeight = some ch) (hhw : net.heartwoodActivation = some hw) :
    b1.header.commitmentBytes = commitmentValue g net st.historyTree ch hw b1.transactions := by
  unfold processBlock at hp
  repeat' first
    | split at hp
    | dsimp only at hp
  all_goals first
    | (simp only [Option.some.injEq, Prod.mk.injEq] at hp
       obtain ⟨hb, hs⟩ := hp
       subst hb
       subst hs
       simp_all [setCommitment, Block.coinbaseHeight])
    | simp_all

theorem processBlock_candidate_commitment_ignored (g : Oracles) (check : SpendCheck)
    (net : Network) (st : ChainState) (height : Nat) (hprev cA cB hrest : Nat)
    (txs : List Transaction) :
    processBlock g check net true st height ⟨⟨hprev, cA, hrest⟩, txs⟩ =
      processBlock g check net true st height ⟨⟨hprev, cB, hrest⟩, txs⟩ := by
  unfold processBlock
  rcases st.previousBlockHash with _ | hh <;>
    dsimp only <;>
    rcases hpt : processTransactions g check true height txs 0 st.chainValuePools st.utxos
        st.saplingTree st.orchardTree with _ | ⟨nt, p1, u1, s1, o1⟩ <;>
    simp only [hpt] <;>
    dsimp only [Block.coinbaseHeight, setCommitment] <;>
    rfl

/-- C7: in commitment-generating mode, every output block's header
commitment is derived as the pure function `commitmentValue` of the active
network upgrade region at the block's height, the history tree as of
immediately before the block (its prior root), and the block's fixed
transactions (whose digest is the authorizing-data root) — and the
candidate header's commitment bytes have no effect on the output at all. -/
theorem claim_C7_commitment_derived (g : Oracles) (check : SpendCheck) (net : Network)
    (st : ChainState) (height : Nat) (hprev cA cB hrest : Nat) (txs : List Transaction)
    (b1 : Block) (st1 : ChainState) (ch hw : Nat)
    (hp : processBlock g check net true st height ⟨⟨hprev, cA, hrest⟩, txs⟩ = some (b1, st1))
    (hch : b1.coinbaseHeight = some ch) (hhw : net.heartwoodActivation = some hw) :
    b1.header.commitmentBytes = commitmentValue g net st.historyTree ch hw b1.transactions ∧
    processBlock g check net true st height ⟨⟨hprev, cB, hrest⟩, txs⟩ = some (b1, st1) :=
  ⟨processBlock_commitment g check net st height ⟨⟨hprev, cA, hrest⟩, txs⟩ b1 st1 ch hw hp
      hch hhw,
    (processBlock_candidate_commitment_ignored g check net st height hprev cB cA hrest
      txs).trans hp⟩

/-- C7 witness: the derivation rule at a concrete input, with the
candidate commitment replaced by an arbitrary other value. -/
theorem claim_C7_witness :
    processBlock oraclesEx alwaysOkCheck netEx true initialChainState 10
        ⟨⟨99, 88, 77⟩, [coinbaseTxEx 10]⟩ =
      some (⟨⟨99, 0, 77⟩, [coinbaseTxEx 10]⟩,
        ⟨some 5, [(⟨0, 0⟩, ⟨⟨⟨7⟩, 10, true⟩, 0⟩)], ⟨7, 0, 0, 0⟩, [], [],
          some [⟨⟨⟨99, 0, 77⟩, [coinbaseTxEx 10]⟩, [], []⟩]⟩) ∧
    (⟨⟨99, 0, 77⟩, [coinbaseTxEx 10]⟩ : Block).coinbaseHeight = some 10 ∧
    netEx.heartwoodActivation = some 5 ∧
    ((⟨⟨99, 0, 77⟩, [coinbaseTxEx 10]⟩ : Block).header.commitmentBytes =
        commitmentValue oraclesEx netEx initialChainState.historyTree 10 5
          [coinbaseTxEx 10] ∧
      processBlock oraclesEx alwaysOkCheck netEx true initialChainState 10
          ⟨⟨99, 123, 77⟩, [coinbaseTxEx 10]⟩ =
        some (⟨⟨99, 0, 77⟩, [coinbaseTxEx 10]⟩,
          ⟨some 5, [(⟨0, 0⟩, ⟨⟨⟨7⟩, 10, true⟩, 0⟩)], ⟨7, 0, 0, 0⟩, [], [],
            some [⟨⟨⟨99, 0, 77⟩, [coinbaseTxEx 10]⟩, [], []⟩]⟩)) :=
  ⟨by decide, by decide, rfl,
    claim_C7_commitment_derived oraclesEx alwaysOkCheck netEx initialChainState 10
      99 88 123 77 [coinbaseTxEx 10] ⟨⟨99, 0, 77⟩, [coinbaseTxEx 10]⟩
      ⟨some 5, [(⟨0, 0⟩, ⟨⟨⟨7⟩, 10, true⟩, 0⟩)], ⟨7, 0, 0, 0⟩, [], [],
        some [⟨⟨⟨99, 0, 77⟩, [coinbaseTxEx 10]⟩, [], []⟩]⟩ 10 5
      (by decide) (by decide) rfl⟩

theorem chainFixupAux_length (g : Oracles) (check : SpendCheck) (net : Network) (gvc : Bool) :
    ∀ (blocks : List (Nat × Block)) (st : ChainState) (out : List Block) (st2 : ChainState),
    chainFixupAux g check net gvc st blocks = some (out, st2) → out.length = blocks.length := by
  intro blocks
  induction blocks with
  | nil =>
    intro st out st2 hr
    unfold chainFixupAux at hr
    simp only [Option.some.injEq, Prod.mk.injEq] at hr
    obtain ⟨h1, h2⟩ := hr
    subst h1
    rfl
  | cons hb rest ih =>
    intro st out st2 hr
    obtain ⟨height, b⟩ := hb
    unfold chainFixupAux at hr
    rcases hpb : processBlock g check net gvc st height b with _ | ⟨b1, st1⟩ <;> rw [hpb] at hr
    · simp at hr
    · dsimp only at hr
      rcases haux : chainFixupAux g check net gvc st1 rest with _ | ⟨out1, st3⟩ <;>
        rw [haux] at hr
      · simp at hr
      · simp only [Option.some.injEq, Prod.mk.injEq] at hr
        obtain ⟨h1, h2⟩ := hr
        subst h1
        simp [ih st1 out1 st3 haux]

theorem chainFixupAux_append (g : Oracles) (check : SpendCheck) (net : Network) (gvc : Bool) :
    ∀ (xs ys : List (Nat × Block)) (st : ChainState),
    chainFixupAux g check net gvc st (xs ++ ys) =
      (match chainFixupAux g check net gvc st xs with
      | none => none
      | some (out1, st1) =>
        match chainFixupAux g check net gvc st1 ys with
        | none => none
        | some (out2, st2) => some (out1 ++ out2, st2)) := by
  intro xs
  induction xs with
  | nil =>
    intro ys st
    show chainFixupAux g check net gvc st ys = _
    rw [show chainFixupAux g check net gvc st [] = some ([], st) from rfl]
    rcases hy : chainFixupAux g check net gvc st ys with _ | ⟨out2, st2⟩ <;> simp [hy]
  | cons hb rest ih =>
    intro ys st
    obtain ⟨height, b⟩ := hb
    rcases hpb : processBlock g check net gvc st height b with _ | ⟨b1, st1⟩
    · show chainFixupAux g check net gvc st ((height, b) :: (rest ++ ys)) = _
      simp only [chainFixupAux, hpb]
    · show chainFixupAux g check net gvc st ((height, b) :: (rest ++ ys)) = _
      simp only [chainFixupAux, hpb]
      rw [ih ys st1]
      rcases hr : chainFixupAux g check net gvc st1 rest with _ | ⟨out1, st3⟩
      · simp
      · dsimp only
        rcases hy : chainFixupAux g check net gvc st3 ys with _ | ⟨out2, st4⟩
        · simp
        · simp

theorem commitmentValue_above_heartwood (g : Oracles) (net : Network)
    (ht : Option (List HistoryEntry)) (ch hw : Nat) (txs : List Transaction)
    (h1 : hw < ch)
    (h2 : net.nu5Activation = none ∨ ∃ n5, net.nu5Activation = some n5 ∧ ch < n5) :
    commitmentValue g net ht ch hw txs = histRootOrZero g ht := by
  unfold commitmentValue
  rw [if_neg (by omega), if_neg (by omega)]
  rcases h2 with h2 | ⟨n5, hn5, hlt⟩
  · rw [h2]
  · rw [hn5]
    dsimp only
    rw [if_neg (by omega)]

/-- C4: for any block whose height is strictly above the Heartwood
activation height and strictly below the NU5 activation height (or with
NU5 undefined), the fixup sets the block's header commitment to the
history-tree root as of immediately before that block, with the all-zero
fallback when the history tree is absent or empty. -/
theorem claim_C4_commitment_history_root (g : Oracles) (check : SpendCheck) (net : Network)
    (blocks : List (Nat × Block)) (k : Nat) (out : List Block) (stF : ChainState)
    (out1 : List Block) (stk : ChainState) (hgt : Nat) (bk : Block) (blk : Block)
    (ch hw : Nat)
    (hr : chainFixup g check net true blocks = some (out, stF))
    (hpre : chainFixup g check net true (blocks.take k) = some (out1, stk))
    (hblk : blocks.get? k = some (hgt, bk))
    (hout : out.get? k = some blk)
    (hch : blk.coinbaseHeight = some ch)
    (hhw : net.heartwoodActivation = some hw)
    (habove : hw < ch)
    (hnu5 : net.nu5Activation = none ∨ ∃ n5, net.nu5Activation = some n5 ∧ ch < n5) :
    blk.header.commitmentBytes = histRootOrZero g stk.historyTree := by
  unfold chainFixup at hr hpre
  have hsplit := chainFixupAux_append g check net true (blocks.take k) (blocks.drop k)
    initialChainState
  rw [List.take_append_drop, hr, hpre] at hsplit
  have hklen : k < blocks.length := by
    by_contra hk
    push_neg at hk
    rw [List.get?_eq_none.2 hk] at hblk
    exact absurd hblk (by simp)
  have hlen1 : out1.length = k := by
    have := chainFixupAux_length g check net true (blocks.take k) initialChainState out1 stk hpre
    rw [this, List.length_take]
    omega
  have hdk : ∃ rest, blocks.drop k = (hgt, bk) :: rest := by
    rcases hd : blocks.drop k with _ | ⟨p, rest⟩
    · have : blocks.length ≤ k := by
        have := List.drop_eq_nil_iff_le.1 hd
        omega
      omega
    · have hget : (blocks.drop k).get? 0 = some p := by rw [hd]; rfl
      rw [List.get?_drop, Nat.add_zero, hblk] at hget
      simp only [Option.some.injEq] at hget
      refine ⟨rest, ?_⟩
      rw [← hget]
  obtain ⟨rest, hdk⟩ := hdk
  dsimp only at hsplit
  rw [hdk] at hsplit
  simp only [chainFixupAux] at hsplit
  rcases hpb : processBlock g check net true stk hgt bk with _ | ⟨b1, st1⟩ <;>
    rw [hpb] at hsplit
  · simp at hsplit
  · dsimp only at hsplit
    rcases haux : chainFixupAux g check net true st1 rest with _ | ⟨out2, st3⟩ <;>
      rw [haux] at hsplit
    · simp at hsplit
    · simp only [Option.some.injEq, Prod.mk.injEq] at hsplit
      obtain ⟨hout_eq, hst_eq⟩ := hsplit
      have hblk_eq : blk = b1 := by
        rw [hout_eq] at hout
        rw [List.get?_append_right (by omega)] at hout
        rw [hlen1] at hout
        simp at hout
        exact hout.symm
      subst hblk_eq
      rw [processBlock_commitment g check net stk hgt bk blk st1 ch hw hpb hch hhw]
      exact commitmentValue_above_heartwood g net stk.historyTree ch hw blk.transactions
        habove hnu5

/-- C4 witness: the history-root commitment rule at a concrete one-block
run above Heartwood with NU5 undefined. -/
theorem claim_C4_witness :
    chainFixup oraclesEx alwaysOkCheck netEx true [(10, blockEx 10)] =
      some ([⟨⟨99, 0, 77⟩, [coinbaseTxEx 10]⟩],
        ⟨some 5, [(⟨0, 0⟩, ⟨⟨⟨7⟩, 10, true⟩, 0⟩)], ⟨7, 0, 0, 0⟩, [], [],
          some [⟨⟨⟨99, 0, 77⟩, [coinbaseTxEx 10]⟩, [], []⟩]⟩) ∧
    chainFixup oraclesEx alwaysOkCheck netEx true ([(10, blockEx 10)].take 0) =
      some ([], initialChainState) ∧
    (5 : Nat) < 10 ∧
    (⟨⟨99, 0, 77⟩, [coinbaseTxEx 10]⟩ : Block).header.commitmentBytes =
      histRootOrZero oraclesEx initialChainState.historyTree :=
  ⟨by decide, by decide, by omega,
    claim_C4_commitment_history_root oraclesEx alwaysOkCheck netEx [(10, blockEx 10)] 0
      [⟨⟨99, 0, 77⟩, [coinbaseTxEx 10]⟩]
      ⟨some 5, [(⟨0, 0⟩, ⟨⟨⟨7⟩, 10, true⟩, 0⟩)], ⟨7, 0, 0, 0⟩, [], [],
        some [⟨⟨⟨99, 0, 77⟩, [coinbaseTxEx 10]⟩, [], []⟩]⟩
      [] initialChainState 10 (blockEx 10) ⟨⟨99, 0, 77⟩, [coinbaseTxEx 10]⟩ 10 5
      (by decide) (by decide) rfl rfl (by decide) rfl (by omega) (Or.inl rfl)⟩

/-! Ledger lemmas. -/

theorem containsKey_exists (l : Ledger) (k : OutPoint) (h : l.containsKey k = true) :
    ∃ v, (k, v) ∈ l := by
  unfold Ledger.containsKey at h
  rw [List.any_eq_true] at h
  obtain ⟨p, hp, he⟩ := h
  rw [beq_iff_eq] at he
  exact ⟨p.2, by rw [← he]; exact hp⟩

theorem removeEntry_some (l : Ledger) (k : OutPoint) (v : OrderedUtxo) (lrem : Ledger)
    (h : Ledger.removeEntry l k = some (v, lrem)) :
    l.containsKey k = true ∧ lrem = l.filter (fun q => q.1 != k) := by
  unfold Ledger.removeEntry at h
  rcases hf : l.find? (fun p => p.1 == k) with _ | p <;> rw [hf] at h
  · simp at h
  · simp only [Option.some.injEq, Prod.mk.injEq] at h
    obtain ⟨h1, h2⟩ := h
    refine ⟨?_, h2.symm⟩
    have hb := List.find?_some hf
    unfold Ledger.containsKey
    rw [List.any_eq_true]
    exact ⟨p, List.mem_of_find?_eq_some hf, hb⟩

theorem containsKey_filter_ne (l : Ledger) (k : OutPoint) :
    Ledger.containsKey (l.filter (fun q => q.1 != k)) k = false := by
  unfold Ledger.containsKey
  rw [List.any_eq_false]
  intro p hp
  rw [List.mem_filter] at hp
  simp only [bne_iff_ne, ne_eq] at hp
  simp only [beq_iff_eq]
  exact hp.2

theorem containsKey_filter_le (l : Ledger) (f : OutPoint × OrderedUtxo → Bool) (k : OutPoint)
    (h : Ledger.containsKey (l.filter f) k = true) : l.containsKey k = true := by
  unfold Ledger.containsKey at h ⊢
  rw [List.any_eq_true] at h ⊢
  obtain ⟨p, hp, he⟩ := h
  exact ⟨p, (List.mem_filter.1 hp).1, he⟩

theorem containsKey_insertEntry (l : Ledger) (ik : OutPoint) (v : OrderedUtxo) (k : OutPoint)
    (h : (Ledger.insertEntry l ik v).containsKey k = true) :
    l.containsKey k = true ∨ k = ik := by
  unfold Ledger.insertEntry Ledger.containsKey at h
  rw [List.any_eq_true] at h
  obtain ⟨p, hp, he⟩ := h
  rw [List.mem_append] at hp
  rcases hp with hp | hp
  · left
    unfold Ledger.containsKey
    rw [List.any_eq_true]
    exact ⟨p, (List.mem_filter.1 hp).1, he⟩
  · right
    simp only [List.mem_singleton] at hp
    subst hp
    rw [beq_iff_eq] at he
    exact he.symm

theorem containsKey_extendEntries (news : List (OutPoint × OrderedUtxo)) :
    ∀ (l : Ledger) (k : OutPoint), (Ledger.extendEntries l news).containsKey k = true →
    l.containsKey k = true ∨ ∃ v, (k, v) ∈ news := by
  induction news with
  | nil => intro l k h; exact Or.inl h
  | cons p rest ih =>
    intro l k h
    have hstep : Ledger.extendEntries l (p :: rest) =
        Ledger.extendEntries (Ledger.insertEntry l p.1 p.2) rest := rfl
    rw [hstep] at h
    rcases ih (Ledger.insertEntry l p.1 p.2) k h with h1 | ⟨v, hv⟩
    · rcases containsKey_insertEntry l p.1 p.2 k h1 with h2 | h2
      · exact Or.inl h2
      · exact Or.inr ⟨p.2, by rw [h2]; exact List.mem_cons_self p rest⟩
    · exact Or.inr ⟨v, List.mem_cons_of_mem p hv⟩

theorem newOutputs_key (tx : Transaction) (txhash idx height : Nat) (k : OutPoint)
    (v : OrderedUtxo) (h : (k, v) ∈ newTransactionOrderedOutputs tx txhash idx height) :
    k.txid = txhash := by
  unfold newTransactionOrderedOutputs at h
  rw [List.mem_map] at h
  obtain ⟨p, hp, he⟩ := h
  simp only [Prod.mk.injEq] at he
  rw [← he.1]

theorem prevOutpoints_mem (l : List Input) (o : OutPoint) :
    o ∈ prevOutpoints l ↔ Input.prevOut o ∈ l := by
  unfold prevOutpoints
  rw [List.mem_filterMap]
  constructor
  · rintro ⟨i, hi, he⟩
    rcases i with o2 | h2
    · simp only [Option.some.injEq] at he
      rw [he] at hi
      exact hi
    · simp at he
  · intro hi
    exact ⟨Input.prevOut o, hi, rfl⟩

theorem fixInputs_spec (check : SpendCheck) (height : Nat) :
    ∀ (inputs : List Input) (tx : Transaction) (sr : CoinbaseSpendRestriction)
      (utxos : Ledger) (acc : List Input) (spent : List (OutPoint × Output))
      (tx1 : Transaction) (sr1 : CoinbaseSpendRestriction) (utxos1 : Ledger)
      (newInputs : List Input) (spent1 : List (OutPoint × Output)),
    fixInputs check height inputs tx sr utxos acc spent =
      some (tx1, sr1, utxos1, newInputs, spent1) →
    ∃ delta, newInputs = acc ++ delta ∧
      (∀ o, Input.prevOut o ∈ delta →
        utxos.containsKey o = true ∧ utxos1.containsKey o = false) ∧
      (prevOutpoints delta).Nodup ∧
      (∀ k, utxos1.containsKey k = true → utxos.containsKey k = true) := by
  intro inputs
  induction inputs with
  | nil =>
    intro tx sr utxos acc spent tx1 sr1 utxos1 newInputs spent1 h
    unfold fixInputs at h
    simp only [Option.some.injEq, Prod.mk.injEq] at h
    obtain ⟨h1, h2, h3, h4, h5⟩ := h
    subst h3
    subst h4
    refine ⟨[], by simp, ?_, by simp [prevOutpoints], fun k hk => hk⟩
    intro o ho
    simp at ho
  | cons i rest ih =>
    intro tx sr utxos acc spent tx1 sr1 utxos1 newInputs spent1 h
    rcases i with op | hcb
    · unfold fixInputs at h
      rcases hfind : findValidUtxoForSpend check tx sr height utxos with ⟨optO, txA, srA, probes⟩
      rw [hfind] at h
      rcases optO with _ | o
      · dsimp only at h
        exact ih txA srA utxos acc spent tx1 sr1 utxos1 newInputs spent1 h
      · dsimp only at h
        rcases hrem : Ledger.removeEntry utxos o with _ | ⟨spentU, utxosA⟩ <;> rw [hrem] at h
        · simp at h
        · obtain ⟨hcont, hfil⟩ := removeEntry_some utxos o spentU utxosA hrem
          obtain ⟨delta, hdeq, hmem, hnd, hsub⟩ :=
            ih txA srA utxosA (acc ++ [Input.prevOut o])
              (insertSpentOutput spent o spentU.utxo.output) tx1 sr1 utxos1 newInputs spent1 h
          refine ⟨Input.prevOut o :: delta, by rw [hdeq]; simp, ?_, ?_, ?_⟩
          · intro o2 ho2
            rcases List.mem_cons.1 ho2 with ho2 | ho2
            · simp only [Input.prevOut.injEq] at ho2
              subst ho2
              refine ⟨hcont, ?_⟩
              by_contra hcc
              simp only [Bool.not_eq_false] at hcc
              have := hsub o2 hcc
              rw [hfil] at this
              rw [containsKey_filter_ne utxos o2] at this
              exact absurd this (by simp)
            · obtain ⟨hin, hout⟩ := hmem o2 ho2
              refine ⟨?_, hout⟩
              rw [hfil] at hin
              exact containsKey_filter_le utxos _ o2 hin
          · show (prevOutpoints (Input.prevOut o :: delta)).Nodup
            have hstep : prevOutpoints (Input.prevOut o :: delta) = o :: prevOutpoints delta :=
              rfl
            rw [hstep]
            refine List.Nodup.cons ?_ hnd
            intro hmem2
            obtain ⟨hin, _⟩ := hmem o ((prevOutpoints_mem delta o).1 hmem2)
            rw [hfil, containsKey_filter_ne utxos o] at hin
            exact absurd hin (by simp)
          · intro k hk
            have := hsub k hk
            rw [hfil] at this
            exact containsKey_filter_le utxos _ k this
    · unfold fixInputs at h
      obtain ⟨delta, hdeq, hmem, hnd, hsub⟩ :=
        ih tx sr utxos (acc ++ [Input.coinbase hcb]) spent tx1 sr1 utxos1 newInputs spent1 h
      refine ⟨Input.coinbase hcb :: delta, by rw [hdeq]; simp, ?_, hnd, hsub⟩
      intro o2 ho2
      rcases List.mem_cons.1 ho2 with ho2 | ho2
      · simp at ho2
      · exact hmem o2 ho2

/-- C3: for every transaction kept by the transaction fixer, each outpoint
referenced by a kept previous-output input was present in the UTXO ledger
the fixer started from and is absent from the ledger it returns (the
recorded outputs of the kept transaction itself are keyed by its own fresh
transaction hash), and the kept inputs reference pairwise distinct
outpoints — each unspent output is removed exactly once, when selected. -/
theorem claim_C3_utxo_lifecycle (g : Oracles) (check : SpendCheck) (tx : Transaction)
    (idx height : Nat) (pools : ValueBalance) (utxos : Ledger) (res : Option Transaction)
    (pools1 : ValueBalance) (utxos1 : Ledger) (tx1 : Transaction)
    (h : fixGeneratedTransaction g check tx idx height pools utxos = some (res, pools1, utxos1))
    (hres : res = some tx1)
    (hfresh : ∀ p ∈ utxos, p.1.txid ≠ g.txHash tx1) :
    (∀ o, Input.prevOut o ∈ tx1.inputs →
      utxos.containsKey o = true ∧ utxos1.containsKey o = false) ∧
    (prevOutpoints tx1.inputs).Nodup := by
  subst hres
  unfold fixGeneratedTransaction at h
  dsimp only at h
  rcases hfi : fixInputs check height tx.inputs tx (tx.coinbaseSpendRestriction height)
      utxos [] [] with _ | ⟨txA, srA, utxosA, newInputs, spentA⟩ <;> rw [hfi] at h
  · simp at h
  · dsimp only at h
    rcases hv : fixChainValuePools pools spentA { txA with inputs := newInputs }
        with _ | p' <;> rw [hv] at h
    · simp at h
    · dsimp only at h
      obtain ⟨delta, hdeq, hmem, hnd, hsub⟩ := fixInputs_spec check height tx.inputs tx
        (tx.coinbaseSpendRestriction height) utxos [] [] txA srA utxosA newInputs spentA hfi
      rw [List.nil_append] at hdeq
      subst hdeq
      split at h
      · split at h
        · simp only [Option.some.injEq, Prod.mk.injEq] at h
          obtain ⟨h1, h2, h3⟩ := h
          subst h1
          refine ⟨?_, hnd⟩
          intro o ho
          obtain ⟨hin, hout⟩ := hmem o ho
          refine ⟨hin, ?_⟩
          rw [← h3]
          by_contra hcc
          simp only [Bool.not_eq_false] at hcc
          rcases containsKey_extendEntries _ utxosA o hcc with h4 | ⟨v, hv2⟩
          · rw [hout] at h4
            exact absurd h4 (by simp)
          · have hkey := newOutputs_key { txA with inputs := newInputs }
              (g.txHash { txA with inputs := newInputs }) idx height o v hv2
            obtain ⟨v2, hv3⟩ := containsKey_exists utxos o hin
            exact absurd hkey (hfresh (o, v2) hv3)
        · simp only [Option.some.injEq, Prod.mk.injEq] at h
          obtain ⟨h1, h2, h3⟩ := h
          subst h1
          refine ⟨?_, hnd⟩
          intro o ho
          obtain ⟨hin, hout⟩ := hmem o ho
          rw [← h3]
          exact ⟨hin, hout⟩
      · simp at h

/-- C3 witness: a concrete kept spend whose outpoint is consumed from the
ledger exactly once. -/
theorem claim_C3_witness :
    fixGeneratedTransaction oraclesEx alwaysOkCheck
        ⟨[Input.prevOut ⟨9, 9⟩], [⟨4⟩], false, [], [], 0, 0, 0⟩ 0 2 ValueBalance.zero
        [(⟨5, 0⟩, utxoEx)] =
      some (some ⟨[Input.prevOut ⟨5, 0⟩], [⟨4⟩], false, [], [], 0, 0, 0⟩, ⟨1, 0, 0, 0⟩,
        [(⟨0, 0⟩, ⟨⟨⟨4⟩, 2, false⟩, 0⟩)]) ∧
    ((∀ o, Input.prevOut o ∈
        (⟨[Input.prevOut ⟨5, 0⟩], [⟨4⟩], false, [], [], 0, 0, 0⟩ : Transaction).inputs →
        Ledger.containsKey [(⟨5, 0⟩, utxoEx)] o = true ∧
        Ledger.containsKey [(⟨0, 0⟩, ⟨⟨⟨4⟩, 2, false⟩, 0⟩)] o = false) ∧
      (prevOutpoints
        (⟨[Input.prevOut ⟨5, 0⟩], [⟨4⟩], false, [], [], 0, 0, 0⟩ : Transaction).inputs).Nodup) :=
  ⟨by decide,
    claim_C3_utxo_lifecycle oraclesEx alwaysOkCheck
      ⟨[Input.prevOut ⟨9, 9⟩], [⟨4⟩], false, [], [], 0, 0, 0⟩ 0 2 ValueBalance.zero
      [(⟨5, 0⟩, utxoEx)]
      (some ⟨[Input.prevOut ⟨5, 0⟩], [⟨4⟩], false, [], [], 0, 0, 0⟩) ⟨1, 0, 0, 0⟩
      [(⟨0, 0⟩, ⟨⟨⟨4⟩, 2, false⟩, 0⟩)] ⟨[Input.prevOut ⟨5, 0⟩], [⟨4⟩], false, [], [], 0, 0, 0⟩
      (by decide) rfl (by decide)⟩

/-! Empty-ledger behavior and the drop rule. -/

theorem findValidUtxoForSpend_nil (check : SpendCheck) (tx : Transaction)
    (sr : CoinbaseSpendRestriction) (spendHeight : Nat) :
    findValidUtxoForSpend check tx sr spendHeight [] = (none, tx, sr, 0) := rfl

theorem fixInputs_nil_ledger (check : SpendCheck) (height : Nat) :
    ∀ (inputs : List Input) (tx : Transaction) (sr : CoinbaseSpendRestriction)
      (acc : List Input) (spent : List (OutPoint × Output)),
    fixInputs check height inputs tx sr [] acc spent =
      some (tx, sr, [], acc ++ keptCoinbaseInputs inputs, spent) := by
  intro inputs
  induction inputs with
  | nil =>
    intro tx sr acc spent
    show some (tx, sr, ([] : Ledger), acc, spent) = _
    simp [keptCoinbaseInputs]
  | cons i rest ih =>
    intro tx sr acc spent
    rcases i with op | hcb
    · show (match findValidUtxoForSpend check tx sr height [] with
        | (some selectedOutpoint, tx1, sr1, _) =>
          match Ledger.removeEntry [] selectedOutpoint with
          | some (spentUtxo, utxos1) =>
            fixInputs check height rest tx1 sr1 utxos1
              (acc ++ [Input.prevOut selectedOutpoint])
              (insertSpentOutput spent selectedOutpoint spentUtxo.utxo.output)
          | none => none
        | (none, tx1, sr1, _) => fixInputs check height rest tx1 sr1 [] acc spent) = _
      rw [findValidUtxoForSpend_nil]
      dsimp only
      rw [ih tx sr acc spent]
      show _ = some (tx, sr, ([] : Ledger),
        acc ++ List.filter _ (Input.prevOut op :: rest), spent)
      rw [List.filter_cons]
      simp [keptCoinbaseInputs]
    · show fixInputs check height rest tx sr [] (acc ++ [Input.coinbase hcb]) spent = _
      rw [ih tx sr (acc ++ [Input.coinbase hcb]) spent]
      show _ = some (tx, sr, ([] : Ledger),
        acc ++ List.filter _ (Input.coinbase hcb :: rest), spent)
      rw [List.filter_cons]
      simp [keptCoinbaseInputs, List.append_assoc]

theorem findValidUtxoForSpend_none_eq (check : SpendCheck) (tx : Transaction)
    (sr : CoinbaseSpendRestriction) (spendHeight : Nat) (utxos : Ledger)
    (h : (findValidUtxoForSpend check tx sr spendHeight utxos).1 = none) :
    ∃ probes, findValidUtxoForSpend check tx sr spendHeight utxos = (none, tx, sr, probes) := by
  unfold findValidUtxoForSpend at h ⊢
  dsimp only at h ⊢
  rcases hl : findValidUtxoLoop check tx.hasShieldedOutputs
      (CoinbaseSpendRestriction.onlyShieldedOutputs spendHeight) utxos sr 100 0
    with ⟨o, b, probes⟩
  rw [hl] at h
  rcases o with _ | o <;> rcases b
  · exact ⟨probes, rfl⟩
  · exact ⟨probes, rfl⟩
  · simp at h
  · simp at h

/-- C9: the drop rules of the transaction fixer, over arbitrary ledgers.
First, every non-fatal fixer call runs the input-fixing loop and then
drops the transaction entirely — returning nothing, the inner `none`, not
the fatal error path — exactly when the input-fixed transaction has
neither transparent nor shielded inputs, and otherwise keeps exactly that
input-fixed transaction.  Second, when the UTXO search fails for one
previous-output input (for any ledger, also a non-empty one whose entries
the probes reject), only that input is dropped, silently: the loop
continues on the remaining inputs in the same state. -/
theorem claim_C9_drop_rules :
    (∀ (g : Oracles) (check : SpendCheck) (tx : Transaction) (idx height : Nat)
      (pools : ValueBalance) (utxos : Ledger) (res : Option Transaction)
      (pools1 : ValueBalance) (utxos1 : Ledger),
      fixGeneratedTransaction g check tx idx height pools utxos =
        some (res, pools1, utxos1) →
      ∃ tx1 sr1 utxosA newInputs spentA,
        fixInputs check height tx.inputs tx (tx.coinbaseSpendRestriction height)
          utxos [] [] = some (tx1, sr1, utxosA, newInputs, spentA) ∧
        (res = none ↔
          Transaction.hasTransparentOrShieldedInputs
            { tx1 with inputs := newInputs } = false) ∧
        (∀ tx2, res = some tx2 → tx2 = { tx1 with inputs := newInputs })) ∧
    (∀ (check : SpendCheck) (height : Nat) (op : OutPoint) (rest : List Input)
      (tx : Transaction) (sr : CoinbaseSpendRestriction) (utxos : Ledger)
      (acc : List Input) (spent : List (OutPoint × Output)),
      (findValidUtxoForSpend check tx sr height utxos).1 = none →
      fixInputs check height (Input.prevOut op :: rest) tx sr utxos acc spent =
        fixInputs check height rest tx sr utxos acc spent) := by
  constructor
  · intro g check tx idx height pools utxos res pools1 utxos1 h
    unfold fixGeneratedTransaction at h
    dsimp only at h
    rcases hfi : fixInputs check height tx.inputs tx (tx.coinbaseSpendRestriction height)
        utxos [] [] with _ | ⟨tx1, sr1, utxosA, newInputs, spentA⟩ <;> rw [hfi] at h
    · simp at h
    · dsimp only at h
      rcases hv : fixChainValuePools pools spentA { tx1 with inputs := newInputs }
          with _ | newPools <;> rw [hv] at h
      · simp at h
      · dsimp only at h
        refine ⟨tx1, sr1, utxosA, newInputs, spentA, rfl, ?_⟩
        split at h
        · rename_i hb
          split at h <;>
          · simp only [Option.some.injEq, Prod.mk.injEq] at h
            obtain ⟨h1, h2, h3⟩ := h
            subst h1
            refine ⟨?_, ?_⟩
            · constructor
              · intro hc
                simp at hc
              · intro hc
                exact absurd hc (by simp [hb])
            · intro tx2 htx2
              simp only [Option.some.injEq] at htx2
              exact htx2.symm
        · rename_i hb
          simp only [Option.some.injEq, Prod.mk.injEq] at h
          obtain ⟨h1, h2, h3⟩ := h
          subst h1
          refine ⟨?_, ?_⟩
          · constructor
            · intro _
              simp only [Bool.not_eq_true] at hb
              exact hb
            · intro _
              rfl
          · intro tx2 htx2
            simp at htx2
  · intro check height op rest tx sr utxos acc spent hnone
    obtain ⟨probes, heq⟩ := findValidUtxoForSpend_none_eq check tx sr height utxos hnone
    show (match findValidUtxoForSpend check tx sr height utxos with
        | (some selectedOutpoint, tx1, sr1, _) =>
          match Ledger.removeEntry utxos selectedOutpoint with
          | some (spentUtxo, utxos1) =>
            fixInputs check height rest tx1 sr1 utxos1
              (acc ++ [Input.prevOut selectedOutpoint])
              (insertSpentOutput spent selectedOutpoint spentUtxo.utxo.output)
          | none => none
        | (none, tx1, sr1, _) => fixInputs check height rest tx1 sr1 utxos acc spent) =
      fixInputs check height rest tx sr utxos acc spent
    rw [heq]

/-- C9 witness: against a non-empty ledger whose only entry the check
rejects, a transaction with one unmatchable transparent input and no
shielded data is dropped entirely (no error), and the failed search for
that input drops only that input, leaving the loop on the remaining
inputs unchanged. -/
theorem claim_C9_witness :
    fixGeneratedTransaction oraclesEx alwaysFailCheck
        ⟨[Input.prevOut ⟨9, 9⟩], [], false, [], [], 0, 0, 0⟩ 0 1 ValueBalance.zero
        [(⟨1, 1⟩, utxoEx)] =
      some (none, ValueBalance.zero, [(⟨1, 1⟩, utxoEx)]) ∧
    (∃ tx1 sr1 utxosA newInputs spentA,
      fixInputs alwaysFailCheck 1
          (⟨[Input.prevOut ⟨9, 9⟩], [], false, [], [], 0, 0, 0⟩ : Transaction).inputs
          ⟨[Input.prevOut ⟨9, 9⟩], [], false, [], [], 0, 0, 0⟩
          (Transaction.coinbaseSpendRestriction
            ⟨[Input.prevOut ⟨9, 9⟩], [], false, [], [], 0, 0, 0⟩ 1)
          [(⟨1, 1⟩, utxoEx)] [] [] = some (tx1, sr1, utxosA, newInputs, spentA) ∧
      ((none : Option Transaction) = none ↔
        Transaction.hasTransparentOrShieldedInputs
          { tx1 with inputs := newInputs } = false) ∧
      (∀ tx2, (none : Option Transaction) = some tx2 →
        tx2 = { tx1 with inputs := newInputs })) ∧
    (findValidUtxoForSpend alwaysFailCheck
        ⟨[Input.prevOut ⟨9, 9⟩, Input.coinbase 4], [], false, [], [], 0, 0, 0⟩
        CoinbaseSpendRestriction.someTransparentOutputs 1 [(⟨1, 1⟩, utxoEx)]).1 = none ∧
    fixInputs alwaysFailCheck 1 [Input.prevOut ⟨9, 9⟩, Input.coinbase 4]
        ⟨[Input.prevOut ⟨9, 9⟩, Input.coinbase 4], [], false, [], [], 0, 0, 0⟩
        CoinbaseSpendRestriction.someTransparentOutputs [(⟨1, 1⟩, utxoEx)] [] [] =
      fixInputs alwaysFailCheck 1 [Input.coinbase 4]
        ⟨[Input.prevOut ⟨9, 9⟩, Input.coinbase 4], [], false, [], [], 0, 0, 0⟩
        CoinbaseSpendRestriction.someTransparentOutputs [(⟨1, 1⟩, utxoEx)] [] [] :=
  ⟨by decide,
    claim_C9_drop_rules.1 oraclesEx alwaysFailCheck
      ⟨[Input.prevOut ⟨9, 9⟩], [], false, [], [], 0, 0, 0⟩ 0 1 ValueBalance.zero
      [(⟨1, 1⟩, utxoEx)] none ValueBalance.zero [(⟨1, 1⟩, utxoEx)] (by decide),
    by decide,
    claim_C9_drop_rules.2 alwaysFailCheck 1 ⟨9, 9⟩ [Input.coinbase 4]
      ⟨[Input.prevOut ⟨9, 9⟩, Input.coinbase 4], [], false, [], [], 0, 0, 0⟩
      CoinbaseSpendRestriction.someTransparentOutputs [(⟨1, 1⟩, utxoEx)] [] [] (by decide)⟩
